import Mathlib

set_option maxHeartbeats 1000000

/-!
Shallow embedding of the shopping-list core of `cookplanner`
(`src/cookplanner/planning/shopping_list.py`), together with theorems
settling the specification claims about it.

Modelling conventions:
* Python `float` values are idealized as exact rationals, represented by
  `PyNum`, an unnormalized numerator/denominator pair of integers (the
  denominator is kept nonnegative); every operation of the model is
  value-correct for exact rational arithmetic, and all decisions the code
  makes on floats (equality with `1.0`, wholeness, ordering during
  rounding) are made on the represented value.  Binary floating-point
  rounding is not modelled.  Python `float(str)` string parsing is modelled
  for finite decimal literals (optional whitespace, optional sign, digits
  with at most one decimal point, optional exponent); the special forms
  `inf`/`nan` and underscore digit separators are outside the model.
* Python strings are `String`; the regex `^([\d.]+)\s*(.*)` and
  `str.strip()` are modelled over ASCII character classes (`\d` = `0-9`,
  `\s` = space, tab, newline, carriage return, vertical tab, form feed;
  `.` in the pattern does not match a newline).  `str.lower()` is modelled
  as ASCII lowercasing.
* A raised, uncaught Python exception is modelled as `Except.error`.
* Python `dict` (insertion ordered) grouping is modelled denotationally:
  keys in first-encounter order, each bucket the in-order sublist of
  matching elements.  Python's stable `list.sort` is modelled by stable
  insertion sort, which computes the same list.
-/

instance {ε α : Type} [DecidableEq ε] [DecidableEq α] : DecidableEq (Except ε α)
  | .ok a, .ok b =>
    if h : a = b then .isTrue (congrArg Except.ok h)
    else .isFalse (fun hc => h (Except.ok.inj hc))
  | .error e, .error f =>
    if h : e = f then .isTrue (congrArg Except.error h)
    else .isFalse (fun hc => h (Except.error.inj hc))
  | .ok _, .error _ => .isFalse (fun hc => Except.noConfusion hc)
  | .error _, .ok _ => .isFalse (fun hc => Except.noConfusion hc)

/-- ASCII whitespace, modelling the `\s` class and `str.strip`'s default
character set (unicode whitespace beyond ASCII is outside the model). -/
def isWS (c : Char) : Bool :=
  c = ' ' || c = '\t' || c = '\n' || c = '\r' || c = Char.ofNat 11 || c = Char.ofNat 12

/-- `str.strip()` on a character list: drop whitespace from both ends. -/
def stripChars (l : List Char) : List Char :=
  ((l.dropWhile isWS).reverse.dropWhile isWS).reverse

/-- Right trim only (used to describe results of `str.strip` after a
non-whitespace prefix). -/
def rstripChars (l : List Char) : List Char :=
  (l.reverse.dropWhile isWS).reverse

/-- Numeric value of a list of ASCII digit characters (most significant
first), as read by Python's number parsing. -/
def digitsToNat (l : List Char) : ℕ :=
  l.foldl (fun a c => 10 * a + (c.toNat - 48)) 0

/-- Optional exponent suffix of a Python float literal: either nothing, or
`e`/`E`, an optional sign and a nonempty digit run consuming the rest. -/
def parseExpPart : List Char → Option ℤ
  | [] => some 0
  | c :: rest =>
    if c = 'e' || c = 'E' then
      let (sgn, rest2) : ℤ × List Char :=
        match rest with
        | '+' :: r => (1, r)
        | '-' :: r => (-1, r)
        | r => (1, r)
      let ds := rest2.takeWhile Char.isDigit
      let rest3 := rest2.dropWhile Char.isDigit
      if ds ≠ [] ∧ rest3 = [] then some (sgn * (digitsToNat ds : ℤ)) else none
    else none

/-- Exact rational value of a Python float, as an unnormalized
numerator/denominator pair.  The denominator is nonnegative for every
value the model constructs; it is zero only for the `target/0` scale
factor that would make Python raise `ZeroDivisionError` (the spec excludes
zero native servings as a storage-layer data error). -/
structure PyNum where
  num : ℤ
  den : ℤ
deriving DecidableEq

/-- Build a value from a signed fraction, keeping the denominator
nonnegative. -/
def pnum (n d : ℤ) : PyNum := if d < 0 then ⟨-n, -d⟩ else ⟨n, d⟩

/-- Exact product. -/
def PyNum.mul (a b : PyNum) : PyNum := ⟨a.num * b.num, a.den * b.den⟩

/-- Exact sum. -/
def PyNum.add (a b : PyNum) : PyNum := ⟨a.num * b.den + b.num * a.den, a.den * b.den⟩

/-- Negation. -/
def PyNum.neg (a : PyNum) : PyNum := ⟨-a.num, a.den⟩

/-- Absolute value. -/
def PyNum.abs (a : PyNum) : PyNum := ⟨|a.num|, a.den⟩

/-- Multiply by `10^e` for an integer exponent. -/
def PyNum.scale10 (a : PyNum) (e : ℤ) : PyNum :=
  if 0 ≤ e then ⟨a.num * 10 ^ e.toNat, a.den⟩ else ⟨a.num, a.den * 10 ^ (-e).toNat⟩

/-- The represented value, for specification-level statements. -/
def PyNum.val (a : PyNum) : ℚ := (a.num : ℚ) / (a.den : ℚ)

/-- `a == 1.0` on the represented value. -/
def PyNum.isOne (a : PyNum) : Prop := a.num = a.den

instance (a : PyNum) : Decidable a.isOne := inferInstanceAs (Decidable (a.num = a.den))

/-- Python's `x == int(x)` test: the value is a whole number. -/
def PyNum.whole (a : PyNum) : Prop := a.num % a.den = 0

instance (a : PyNum) : Decidable a.whole := inferInstanceAs (Decidable (a.num % a.den = 0))

/-- Python `int(x)` on a whole value (truncation toward zero). -/
def PyNum.trunc (a : PyNum) : ℤ := a.num.tdiv a.den

/-- Floor of the represented value (the denominator is positive on every
path that reaches it). -/
def PyNum.floor (a : PyNum) : ℤ := a.num.fdiv a.den

/-- Value-level strict comparison (valid for nonnegative denominators). -/
def PyNum.ltv (a b : PyNum) : Prop := a.num * b.den < b.num * a.den

instance (a b : PyNum) : Decidable (a.ltv b) :=
  inferInstanceAs (Decidable (a.num * b.den < b.num * a.den))

/-- Unsigned part of a Python float literal: a digit run, an optional
decimal point with a further digit run (at least one digit overall), and an
optional exponent. -/
def parseUFloat (l : List Char) : Option PyNum :=
  let ip := l.takeWhile Char.isDigit
  let r1 := l.dropWhile Char.isDigit
  match r1 with
  | '.' :: r2 =>
    let fp := r2.takeWhile Char.isDigit
    let r3 := r2.dropWhile Char.isDigit
    if ip = [] ∧ fp = [] then none
    else (parseExpPart r3).map (fun e =>
      PyNum.scale10 ⟨(digitsToNat (ip ++ fp) : ℤ), (10 : ℤ) ^ fp.length⟩ e)
  | _ =>
    if ip = [] then none
    else (parseExpPart r1).map (fun e => PyNum.scale10 ⟨(digitsToNat ip : ℤ), 1⟩ e)

/-- Model of CPython `float(str)` on a character list: strip whitespace,
optional sign, then an unsigned decimal literal.  `none` models a raised
`ValueError`. -/
def pyFloatChars (l : List Char) : Option PyNum :=
  match stripChars l with
  | '+' :: r => parseUFloat r
  | '-' :: r => (parseUFloat r).map PyNum.neg
  | r => parseUFloat r

/-- Model of CPython `float(str)` on a `String`. -/
def pyFloat (s : String) : Option PyNum :=
  pyFloatChars s.data

/-- Model of `re.match(r"^([\d.]+)\s*(.*)", s)`: group 1 is the maximal
leading run of digits/periods (`none` when empty, i.e. no match); the
following whitespace run is skipped; group 2 is the rest of the line (the
`.` class stops at a newline). -/
def reLeadChars (l : List Char) : Option (List Char × List Char) :=
  let g1 := l.takeWhile (fun c => c.isDigit || c = '.')
  if g1 = [] then none
  else
    let r1 := (l.dropWhile (fun c => c.isDigit || c = '.')).dropWhile isWS
    some (g1, r1.takeWhile (fun c => c ≠ '\n'))

/-- ASCII digit character for `n % 10`, as produced by Python's integer
formatting. -/
def digitC (n : ℕ) : Char := Char.ofNat (48 + n % 10)

/-- Decimal digits of a natural number, most significant first (fuel-based
so that it reduces definitionally). -/
def natDigitsAux : ℕ → ℕ → List Char
  | 0, _ => []
  | f + 1, n => if n < 10 then [digitC n] else natDigitsAux f (n / 10) ++ [digitC (n % 10)]

/-- Decimal digit string of a natural number, as in Python's `str(int)`. -/
def natDigits (n : ℕ) : List Char := natDigitsAux (n + 1) n

/-- Python `str(int)` on an integer: optional minus sign, then digits. -/
def intChars (i : ℤ) : List Char :=
  (if i < 0 then ['-'] else []) ++ natDigits i.natAbs

/-- Round to the nearest integer, ties to even — the rounding used by
Python's fixed-point string formatting. -/
def roundHalfEven (q : PyNum) : ℤ :=
  let f := q.floor
  let r := q.add ⟨-f, 1⟩
  if r.ltv ⟨1, 2⟩ then f
  else if PyNum.ltv ⟨1, 2⟩ r then f + 1
  else if 2 ∣ f then f else f + 1

/-- Model of Python `f"{x:.1f}"`: sign, then the value rounded to one
decimal digit (ties to even). -/
def fmt1Chars (q : PyNum) : List Char :=
  let n := (roundHalfEven (q.abs.mul ⟨10, 1⟩)).toNat
  (if q.num < 0 then ['-'] else []) ++ natDigits (n / 10) ++ '.' :: natDigits (n % 10)

/-- The repo's number-formatting rule (`shopping_list.py` lines 178-181 and
230-233): `str(int(x))` when the value is mathematically whole, otherwise
`f"{x:.1f}"`. -/
def fmtNumChars (q : PyNum) : List Char :=
  if q.whole then intChars q.trunc else fmt1Chars q

/-- String form of the number-formatting rule. -/
def fmtNum (q : PyNum) : String := String.mk (fmtNumChars q)

/-- `ShoppingListGenerator._scale_quantity` (`shopping_list.py` lines
163-198).  `Except.error` models the uncaught `ValueError` raised by
`float(match.group(1))` inside the `except` handler when the leading
digit/period run is not a valid float (e.g. `"1.2.3"`). -/
def scale_quantity (quantity : String) (scale_factor : PyNum) : Except String String :=
  if quantity = "" ∨ scale_factor.isOne then .ok quantity
  else
    match pyFloatChars quantity.data with
    | some qty => .ok (fmtNum (qty.mul scale_factor))
    | none =>
      match reLeadChars quantity.data with
      | some (g1, rest) =>
        match pyFloatChars g1 with
        | some qty =>
          .ok (String.mk (stripChars (fmtNumChars (qty.mul scale_factor) ++ ' ' :: rest)))
        | none => .error "ValueError: could not convert string to float"
      | none => .ok quantity

/-- One ingredient entry dict as built by `_aggregate_ingredients`
(`shopping_list.py` lines 93-100). -/
structure IngLine where
  name_en : String
  name_jp : String
  quantity : String
  unit : String
  scale_factor : PyNum
  recipe_title : String
deriving DecidableEq

/-- The numeric-extraction step of `_sum_quantities` (lines 212-224): the
leading-run regex, falling back to a plain `float` parse of the whole
string when the regex does not match.  `none` models the caught
`ValueError`. -/
def sumParseChars (l : List Char) : Option (PyNum × List Char) :=
  match reLeadChars l with
  | some (g1, g2) => (pyFloatChars g1).map (fun q => (q, g2))
  | none => (pyFloatChars l).map (fun q => (q, []))

/-- The loop of `_sum_quantities` (lines 209-238), with the running total
and unit suffix as accumulators.  A scaling error propagates (the
`_scale_quantity` call is outside the `try`); a parse failure returns the
current scaled string with the `" (multiple recipes)"` suffix. -/
def sumLoop : List IngLine → PyNum → List Char → Except String String
  | [], total, suffix =>
    .ok (String.mk (fmtNumChars total ++ if suffix = [] then [] else ' ' :: suffix))
  | it :: rest, total, suffix =>
    match scale_quantity it.quantity it.scale_factor with
    | .error e => .error e
    | .ok qs =>
      match sumParseChars qs.data with
      | some (q, rem) =>
        sumLoop rest (total.add q) (if suffix = [] ∧ rem ≠ [] then rem else suffix)
      | none => .ok (qs ++ " (multiple recipes)")

/-- `ShoppingListGenerator._sum_quantities` (lines 200-238). -/
def sum_quantities (items : List IngLine) : Except String String :=
  sumLoop items ⟨0, 1⟩ []

/-- A consolidated ingredient dict as built by `_consolidate_ingredients`
(lines 131-156). -/
structure Entry where
  name_en : String
  name_jp : String
  quantity : String
  unit : String
  recipes : List String
deriving DecidableEq

/-- ASCII model of Python `str.lower()`. -/
def lowerStr (s : String) : String := String.mk (s.data.map Char.toLower)

/-- The `GroupKey` of line 121: `(name_en.lower(), unit.lower())` (`unit`
is a string field, so the `if ing["unit"]` guard only re-produces `""` for
an empty unit). -/
def groupKey (i : IngLine) : String × String := (lowerStr i.name_en, lowerStr i.unit)

/-- Keys of a list in first-encounter order, as iterated by a Python
insertion-ordered `dict`. -/
def firstOccur {α : Type} [DecidableEq α] : List α → List α
  | [] => []
  | a :: as => a :: (firstOccur as).filter (fun x => x ≠ a)

/-- Denotation of the `defaultdict(list)` grouping loops (lines 79-102 and
118-122): keys in first-encounter order, each bucket the in-order sublist
of elements with that key. -/
def groupByKey {α κ : Type} [DecidableEq κ] (key : α → κ) (l : List α) :
    List (κ × List α) :=
  (firstOccur (l.map key)).map (fun k => (k, l.filter (fun a => key a = k)))

/-- Map over a list in an `Except` computation (the Python loops raise
through; an exception aborts the whole aggregation). -/
def mapE {α β : Type} (f : α → Except String β) : List α → Except String (List β)
  | [] => .ok []
  | a :: as =>
    match f a with
    | .error e => .error e
    | .ok b =>
      match mapE f as with
      | .error e => .error e
      | .ok bs => .ok (b :: bs)

/-- The per-bucket body of `_consolidate_ingredients` (lines 127-156): a
single item is scaled; several same-keyed items are summed, taking names
and unit from the first item and titles in encounter order. -/
def consolidateBucket : List IngLine → Except String Entry
  | [] => .error "unreachable: grouping never produces an empty bucket"
  | [item] =>
    (scale_quantity item.quantity item.scale_factor).map (fun q =>
      ⟨item.name_en, item.name_jp, q, item.unit, [item.recipe_title]⟩)
  | first :: second :: rest =>
    (sum_quantities (first :: second :: rest)).map (fun q =>
      ⟨first.name_en, first.name_jp, q, first.unit,
        (first :: second :: rest).map (fun i => i.recipe_title)⟩)

/-- Python's `<` on strings: lexicographic comparison of code points. -/
def charsLtb : List Char → List Char → Bool
  | [], [] => false
  | [], _ :: _ => true
  | _ :: _, [] => false
  | a :: as, b :: bs =>
    if a.toNat < b.toNat then true
    else if b.toNat < a.toNat then false
    else charsLtb as bs

/-- Python's `<=` on strings: lexicographic comparison of code points. -/
def charsLeb : List Char → List Char → Bool
  | [], _ => true
  | _ :: _, [] => false
  | a :: as, b :: bs =>
    if a.toNat < b.toNat then true
    else if b.toNat < a.toNat then false
    else charsLeb as bs

/-- Sorting relation of line 159: by `name_en` (Python's stable sort under
`<` on strings, i.e. the stable sort for the code-point `≤`). -/
def byName (a b : Entry) : Prop := charsLeb a.name_en.data b.name_en.data = true

instance : DecidableRel byName :=
  fun x y => inferInstanceAs (Decidable (charsLeb x.name_en.data y.name_en.data = true))

/-- `ShoppingListGenerator._consolidate_ingredients` (lines 111-161). -/
def consolidate_ingredients (l : List IngLine) : Except String (List Entry) :=
  match mapE (fun kb => consolidateBucket kb.2) (groupByKey groupKey l) with
  | .error e => .error e
  | .ok entries => .ok (List.insertionSort byName entries)

/-- An ingredient record as stored with a recipe (`schema.py`): `unit` is a
string, `category` optional. -/
structure Ingredient where
  name_en : String
  name_jp : String
  quantity : String
  unit : String
  category : Option String
deriving DecidableEq

/-- A recipe record as loaded from storage (`orm.py` / `schema.py`). -/
structure Recipe where
  id : ℤ
  title_en : String
  servings : ℤ
  ingredients : List Ingredient
deriving DecidableEq

/-- Category of an ingredient (line 90): Python truthiness sends both a
missing and an empty category to `"Other"`. -/
def categoryOf (ing : Ingredient) : String :=
  match ing.category with
  | some c => if c = "" then "Other" else c
  | none => "Other"

/-- The per-recipe part of `_aggregate_ingredients` (lines 81-102): the
scale factor is `target / native servings` when an override is present,
else `1.0`, and each ingredient becomes a `(category, entry)` pair. -/
def catLines (ov : ℤ → Option ℤ) (r : Recipe) : List (String × IngLine) :=
  let factor : PyNum :=
    match ov r.id with
    | some t => pnum t r.servings
    | none => ⟨1, 1⟩
  r.ingredients.map (fun ing =>
    (categoryOf ing,
      ⟨ing.name_en, ing.name_jp, ing.quantity, ing.unit, factor, r.title_en⟩))

/-- All `(category, entry)` pairs of a recipe list, in encounter order. -/
def allLines (ov : ℤ → Option ℤ) (recipes : List Recipe) : List (String × IngLine) :=
  (recipes.map (catLines ov)).flatten

/-- The per-category step of `_aggregate_ingredients` (line 107):
consolidate the category's ingredient entries. -/
def aggStep (cb : String × List (String × IngLine)) :
    Except String (String × List Entry) :=
  match consolidate_ingredients (cb.2.map Prod.snd) with
  | .error e => .error e
  | .ok es => .ok (cb.1, es)

/-- `ShoppingListGenerator._aggregate_ingredients` (lines 70-109): group by
category, consolidate each category bucket. -/
def aggregate_ingredients (ov : ℤ → Option ℤ) (recipes : List Recipe) :
    Except String (List (String × List Entry)) :=
  mapE aggStep (groupByKey Prod.fst (allLines ov recipes))

/-- `ShoppingList` (lines 14-32): a mapping from category to consolidated
entries, modelled as the insertion-ordered association list. -/
structure ShoppingList where
  items : List (String × List Entry)
deriving DecidableEq

/-- `ShoppingList.get_categories` (lines 26-28): `sorted(keys)`. -/
def get_categories (sl : ShoppingList) : List String :=
  List.insertionSort (fun a b : String => charsLeb a.data b.data = true) (sl.items.map Prod.fst)

/-- `ShoppingList.get_items_by_category` (lines 30-32): `dict.get` with
default `[]`. -/
def get_items_by_category (sl : ShoppingList) (c : String) : List Entry :=
  match sl.items.find? (fun p => p.1 = c) with
  | some p => p.2
  | none => []

/-- `ShoppingListGenerator.generate_from_recipe_ids` (lines 42-68), with
the storage collaborator `get_recipe` abstracted as a lookup function
(missing IDs yield `none`). -/
def generate_from_recipe_ids (store : ℤ → Option Recipe) (ids : List ℤ)
    (ov : ℤ → Option ℤ) : Except String ShoppingList :=
  let recipes := ids.filterMap store
  if recipes = [] then .ok ⟨[]⟩
  else
    match aggregate_ingredients ov recipes with
    | .error e => .error e
    | .ok res => .ok ⟨res⟩

/-! Specification-level helper definitions, used to state the claims. -/

/-- The scaled-then-reparsed reading of one ingredient line inside
`_sum_quantities`: `some (value, remainder)` when the line's scaled
quantity string parses numerically, `none` when it fails to parse (or when
scaling itself raises). -/
def lineParsed (it : IngLine) : Option (PyNum × List Char) :=
  match scale_quantity it.quantity it.scale_factor with
  | .ok s => sumParseChars s.data
  | .error _ => none

/-- Numeric value of a parsed line (defaults to `0` off the parsed case). -/
def lineVal (it : IngLine) : PyNum := ((lineParsed it).getD (⟨0, 1⟩, [])).1

/-- Unit remainder of a parsed line (defaults to empty). -/
def lineRem (it : IngLine) : List Char := ((lineParsed it).getD (⟨0, 1⟩, [])).2

/-- The remainder of the first line that has a non-empty remainder (empty
if no line has one) — the spec's first-wins unit tie-break. -/
def firstRem : List IngLine → List Char
  | [] => []
  | it :: rest => if lineRem it = [] then firstRem rest else lineRem it

/-- The identity the (amended) grouping-determinism claim assigns to a
consolidated entry: case-normalized name and unit, and the number of
contributing recipes. -/
def entrySig (e : Entry) : String × String × ℕ :=
  (lowerStr e.name_en, lowerStr e.unit, e.recipes.length)

/-- Python's strict string comparison, on `String`. -/
def pyStrLt (a b : String) : Prop := charsLtb a.data b.data = true

instance (a b : String) : Decidable (pyStrLt a b) :=
  inferInstanceAs (Decidable (charsLtb a.data b.data = true))

/-! General lemmas about the embedding's building blocks. -/

theorem mapE_mem_of {α β : Type} (f : α → Except String β) :
    ∀ {l : List α} {r : List β}, mapE f l = .ok r → ∀ y ∈ r, ∃ x ∈ l, f x = .ok y := by
  intro l
  induction l with
  | nil =>
    intro r h y hy
    simp only [mapE] at h
    cases h
    simp at hy
  | cons a as ih =>
    intro r h y hy
    simp only [mapE] at h
    cases hfa : f a with
    | error e => rw [hfa] at h; cases h
    | ok b =>
      rw [hfa] at h
      cases hrest : mapE f as with
      | error e => rw [hrest] at h; cases h
      | ok bs =>
        rw [hrest] at h
        cases h
        rcases List.mem_cons.mp hy with hy | hy
        · exact ⟨a, List.mem_cons_self a as, hy ▸ hfa⟩
        · obtain ⟨x, hx, hfx⟩ := ih hrest y hy
          exact ⟨x, List.mem_cons_of_mem a hx, hfx⟩

theorem mapE_mem_to {α β : Type} (f : α → Except String β) :
    ∀ {l : List α} {r : List β}, mapE f l = .ok r → ∀ x ∈ l, ∃ y ∈ r, f x = .ok y := by
  intro l
  induction l with
  | nil => intro r _ x hx; simp at hx
  | cons a as ih =>
    intro r h x hx
    simp only [mapE] at h
    cases hfa : f a with
    | error e => rw [hfa] at h; cases h
    | ok b =>
      rw [hfa] at h
      cases hrest : mapE f as with
      | error e => rw [hrest] at h; cases h
      | ok bs =>
        rw [hrest] at h
        cases h
        rcases List.mem_cons.mp hx with hx | hx
        · exact ⟨b, List.mem_cons_self b bs, hx ▸ hfa⟩
        · obtain ⟨y, hy, hfy⟩ := ih hrest x hx
          exact ⟨y, List.mem_cons_of_mem b hy, hfy⟩

/-- `pyFloat` rejects the empty string. -/
theorem pyFloat_empty : pyFloat "" = none := rfl

/-- C4, part of the proof: the early return of `_scale_quantity`. -/
theorem scale_quantity_one (q : String) : scale_quantity q ⟨1, 1⟩ = .ok q := by
  simp [scale_quantity, PyNum.isOne]

theorem scale_quantity_empty (f : PyNum) : scale_quantity "" f = .ok "" := by
  simp [scale_quantity]

/-- Scaling is the identity whenever the factor is the float `1.0`. -/
theorem scale_quantity_isOne (q : String) (f : PyNum) (h : f.isOne) :
    scale_quantity q f = .ok q := by
  simp [scale_quantity, h]

/-- C4: `scale_quantity(q, 1.0) == q` for every quantity string, and
`scale_quantity("", f) == ""` for every factor — the no-op scaling path
returns the input unchanged. -/
theorem claim_C4_noop_scaling :
    (∀ (q : String) (f : PyNum), f.isOne → scale_quantity q f = .ok q) ∧
      (∀ f : PyNum, scale_quantity "" f = .ok "") :=
  ⟨scale_quantity_isOne, scale_quantity_empty⟩

theorem claim_C4_noop_scaling_witness :
    scale_quantity "2 cups" ⟨1, 1⟩ = .ok "2 cups" ∧ scale_quantity "" ⟨3, 1⟩ = .ok "" :=
  ⟨claim_C4_noop_scaling.1 "2 cups" ⟨1, 1⟩ rfl, claim_C4_noop_scaling.2 ⟨3, 1⟩⟩

/-- C2 (code bug): scaling does not always return normally.  On the
quantity `"1.2.3"` with factor `2.0`, `float(quantity)` raises, the
fallback regex matches the whole run `"1.2.3"`, and `float(match.group(1))`
raises `ValueError` again — uncaught, inside the `except` handler — so the
exception escapes `_scale_quantity`, and likewise `_sum_quantities`, whose
`_scale_quantity` call sits outside its `try`. -/
theorem claim_C2_unparsable_raises :
    scale_quantity "1.2.3" ⟨2, 1⟩ = .error "ValueError: could not convert string to float" ∧
      sum_quantities
          [⟨"Pepper", "", "1", "", ⟨2, 1⟩, "A"⟩, ⟨"Pepper", "", "1.2.3", "", ⟨2, 1⟩, "B"⟩] =
        .error "ValueError: could not convert string to float" := by
  decide

/-- C3 counterexample: the fraction string `"1/2"` is not preserved
verbatim by scaling — its leading digit run `"1"` is parsed and scaled, and
`"/2"` is kept as the remainder, giving `"2 /2"` at factor `2.0`. -/
theorem claim_C3_counterexample :
    scale_quantity "1/2" ⟨2, 1⟩ = .ok "2 /2" ∧ scale_quantity "1/2" ⟨2, 1⟩ ≠ .ok "1/2" := by
  decide

/-- C3 (amended): a quantity string rejected by the full-string float
parse and with no leading digit/period run is returned unchanged by
scaling, for every factor; `scale_quantity("to taste", 3.0) == "to taste"`.
Fraction strings such as `"1/2"` do have a leading numeric run: the
leading integer is scaled and the `"/denominator"` text is kept as a
remainder (no division is performed), e.g. `"1/2"` at factor `2.0` gives
`"2 /2"`. -/
theorem claim_C3_nonnumeric_passthrough :
    (∀ (q : String) (f : PyNum), pyFloat q = none → reLeadChars q.data = none →
        scale_quantity q f = .ok q) ∧
      scale_quantity "to taste" ⟨3, 1⟩ = .ok "to taste" ∧
        scale_quantity "1/2" ⟨2, 1⟩ = .ok "2 /2" := by
  refine ⟨fun q f h1 h2 => ?_, by decide, by decide⟩
  unfold scale_quantity
  rw [pyFloat] at h1
  split
  · rfl
  · rw [h1, h2]

theorem claim_C3_nonnumeric_passthrough_witness :
    scale_quantity "to taste" ⟨3, 1⟩ = .ok "to taste" :=
  claim_C3_nonnumeric_passthrough.1 "to taste" ⟨3, 1⟩ (by decide) (by decide)

/-- C9: aggregating no recipes yields a structure with zero categories, a
recipe without ingredients contributes nothing, and querying an absent
category returns the empty list rather than failing. -/
theorem claim_C9_empty_cases :
    (∀ ov : ℤ → Option ℤ, aggregate_ingredients ov [] = .ok [] ∧ get_categories ⟨[]⟩ = []) ∧
      (∀ (ov : ℤ → Option ℤ) (r : Recipe) (rs : List Recipe), r.ingredients = [] →
        aggregate_ingredients ov (r :: rs) = aggregate_ingredients ov rs) ∧
      (∀ (sl : ShoppingList) (c : String), c ∉ sl.items.map Prod.fst →
        get_items_by_category sl c = []) := by
  refine ⟨fun ov => ⟨rfl, rfl⟩, fun ov r rs h => ?_, fun sl c h => ?_⟩
  · simp [aggregate_ingredients, allLines, catLines, h]
  · unfold get_items_by_category
    rw [List.find?_eq_none.mpr]
    intro p hp
    simp only [decide_eq_true_eq]
    exact fun hc => h (hc ▸ List.mem_map_of_mem Prod.fst hp)

theorem claim_C9_empty_cases_witness :
    aggregate_ingredients (fun _ => none) [] = .ok [] ∧
      aggregate_ingredients (fun _ => none) [⟨7, "Empty", 2, []⟩] =
        aggregate_ingredients (fun _ => none) [] ∧
      get_items_by_category ⟨[("Spices", [])]⟩ "Dairy" = [] :=
  ⟨(claim_C9_empty_cases.1 (fun _ => none)).1,
    claim_C9_empty_cases.2.1 (fun _ => none) ⟨7, "Empty", 2, []⟩ [] rfl,
    claim_C9_empty_cases.2.2 ⟨[("Spices", [])]⟩ "Dairy" (by decide)⟩

/-- Resolving recipe IDs through storage ignores IDs that resolve to
nothing. -/
theorem filterMap_filter_isSome {α β : Type} (g : α → Option β) (l : List α) :
    l.filterMap g = (l.filter (fun a => (g a).isSome)).filterMap g := by
  induction l with
  | nil => rfl
  | cons a as ih =>
    cases hg : g a with
    | none => simp [List.filterMap_cons, List.filter_cons, hg, ih]
    | some b => simp [List.filterMap_cons, List.filter_cons, hg, ih]

/-- C10: IDs that storage cannot resolve are silently skipped — the result
is the same as generating from the filtered ID list — and when no ID
resolves the result is the empty structure, identical to the result for an
empty ID list. -/
theorem claim_C10_missing_ids_skipped :
    (∀ (store : ℤ → Option Recipe) (ids : List ℤ) (ov : ℤ → Option ℤ),
        generate_from_recipe_ids store ids ov =
          generate_from_recipe_ids store (ids.filter (fun i => (store i).isSome)) ov) ∧
      (∀ (store : ℤ → Option Recipe) (ids : List ℤ) (ov : ℤ → Option ℤ),
        (∀ i ∈ ids, store i = none) →
          generate_from_recipe_ids store ids ov = .ok ⟨[]⟩ ∧
            generate_from_recipe_ids store ids ov = generate_from_recipe_ids store [] ov) := by
  constructor
  · intro store ids ov
    unfold generate_from_recipe_ids
    rw [← filterMap_filter_isSome]
  · intro store ids ov h
    have hnil : ids.filterMap store = [] := List.filterMap_eq_nil_iff.mpr h
    constructor
    · unfold generate_from_recipe_ids
      rw [hnil]
      rfl
    · unfold generate_from_recipe_ids
      rw [hnil]
      rfl

theorem claim_C10_missing_ids_skipped_witness :
    generate_from_recipe_ids (fun _ => none) [4, 5] (fun _ => none) = .ok ⟨[]⟩ ∧
      generate_from_recipe_ids (fun _ => none) [4, 5] (fun _ => none) =
        generate_from_recipe_ids (fun _ => none) [] (fun _ => none) :=
  claim_C10_missing_ids_skipped.2 (fun _ => none) [4, 5] (fun _ => none)
    (fun _ _ => rfl)

/-- When every line of the bucket scales and re-parses numerically, the
summation loop returns the formatted running sum, suffixed with the
accumulated unit (or, if none was accumulated yet, the first non-empty
remainder among the lines). -/
theorem sumLoop_all_parsed :
    ∀ (items : List IngLine) (total : PyNum) (suffix : List Char),
      (∀ it ∈ items, (lineParsed it).isSome) →
      sumLoop items total suffix =
        .ok (String.mk (fmtNumChars (List.foldl PyNum.add total (items.map lineVal)) ++
          (if (if suffix = [] then firstRem items else suffix) = [] then []
           else ' ' :: (if suffix = [] then firstRem items else suffix)))) := by
  intro items
  induction items with
  | nil =>
    intro total suffix _
    by_cases hs : suffix = [] <;> simp [sumLoop, hs, firstRem]
  | cons it rest ih =>
    intro total suffix h
    have hit := h it (List.mem_cons_self it rest)
    cases hlp : lineParsed it with
    | none => rw [hlp] at hit; cases hit
    | some pr =>
      obtain ⟨v, rem⟩ := pr
      have hrest : ∀ x ∈ rest, (lineParsed x).isSome :=
        fun x hx => h x (List.mem_cons_of_mem it hx)
      cases hsc : scale_quantity it.quantity it.scale_factor with
      | error e => unfold lineParsed at hlp; rw [hsc] at hlp; cases hlp
      | ok qs =>
        have hparse : sumParseChars qs.data = some (v, rem) := by
          unfold lineParsed at hlp; rw [hsc] at hlp; exact hlp
        have hv : lineVal it = v := by rw [lineVal, hlp]; rfl
        have hr : lineRem it = rem := by rw [lineRem, hlp]; rfl
        simp only [sumLoop]
        rw [hsc]
        simp only
        rw [hparse]
        simp only
        rw [ih (total.add v) (if suffix = [] ∧ rem ≠ [] then rem else suffix) hrest]
        simp only [List.map_cons, List.foldl_cons, hv]
        by_cases hs : suffix = [] <;> by_cases hrm : rem = [] <;>
          simp [firstRem, hs, hrm, hr]

/-- When every line before `bad` parses, `bad`'s scaled string does not,
the loop stops at `bad` and returns its scaled string with the
`" (multiple recipes)"` suffix. -/
theorem sumLoop_first_fail :
    ∀ (pre : List IngLine) (bad : IngLine) (post : List IngLine) (total : PyNum)
      (suffix : List Char) (qs : String),
      (∀ it ∈ pre, (lineParsed it).isSome) →
      scale_quantity bad.quantity bad.scale_factor = .ok qs →
      sumParseChars qs.data = none →
      sumLoop (pre ++ bad :: post) total suffix = .ok (qs ++ " (multiple recipes)") := by
  intro pre
  induction pre with
  | nil =>
    intro bad post total suffix qs _ hscale hparse
    simp only [List.nil_append, sumLoop]
    rw [hscale]
    simp only
    rw [hparse]
  | cons p pre' ih =>
    intro bad post total suffix qs h hscale hparse
    have hp := h p (List.mem_cons_self p pre')
    cases hlp : lineParsed p with
    | none => rw [hlp] at hp; cases hp
    | some pr =>
      obtain ⟨v, rem⟩ := pr
      cases hsc : scale_quantity p.quantity p.scale_factor with
      | error e => unfold lineParsed at hlp; rw [hsc] at hlp; cases hlp
      | ok qp =>
        have hpp : sumParseChars qp.data = some (v, rem) := by
          unfold lineParsed at hlp; rw [hsc] at hlp; exact hlp
        simp only [List.cons_append, sumLoop]
        rw [hsc]
        simp only
        rw [hpp]
        simp only
        exact ih bad post _ _ qs (fun x hx => h x (List.mem_cons_of_mem p hx)) hscale hparse

/-- C5: for a bucket of two or more same-keyed lines in which every line's
scaled quantity string parses numerically, the consolidated entry carries
the formatted sum of the numeric values with the unit-remainder of the
first line that had a non-empty remainder (none if no line had one), the
first line's names and unit, and all contributing recipe titles in
encounter order; in particular `"2"` and `"1"` of `tbsp`-keyed soy sauce at
scale `1.0` consolidate to quantity `"3"`, unit `"tbsp"`, recipes
`["A", "B"]`. -/
theorem claim_C5_numeric_summation :
    (∀ (i1 i2 : IngLine) (rest : List IngLine),
        (∀ it ∈ i1 :: i2 :: rest, (lineParsed it).isSome) →
        consolidateBucket (i1 :: i2 :: rest) =
          .ok ⟨i1.name_en, i1.name_jp,
            String.mk
              (fmtNumChars
                  (List.foldl PyNum.add ⟨0, 1⟩ ((i1 :: i2 :: rest).map lineVal)) ++
                (if firstRem (i1 :: i2 :: rest) = [] then []
                 else ' ' :: firstRem (i1 :: i2 :: rest))),
            i1.unit, (i1 :: i2 :: rest).map (fun i => i.recipe_title)⟩) ∧
      consolidate_ingredients
          [⟨"Soy sauce", "", "2", "tbsp", ⟨1, 1⟩, "A"⟩,
            ⟨"Soy sauce", "", "1", "tbsp", ⟨1, 1⟩, "B"⟩] =
        .ok [⟨"Soy sauce", "", "3", "tbsp", ["A", "B"]⟩] := by
  constructor
  · intro i1 i2 rest h
    have hloop := sumLoop_all_parsed (i1 :: i2 :: rest) ⟨0, 1⟩ [] h
    simp only [reduceIte] at hloop
    simp only [consolidateBucket, sum_quantities, hloop, Except.map]
  · decide

theorem claim_C5_numeric_summation_witness :
    consolidateBucket
        [⟨"Soy sauce", "", "2", "tbsp", ⟨1, 1⟩, "A"⟩,
          ⟨"Soy sauce", "", "1", "tbsp", ⟨1, 1⟩, "B"⟩] =
      .ok ⟨"Soy sauce", "",
        String.mk
          (fmtNumChars
              (List.foldl PyNum.add ⟨0, 1⟩
                ([⟨"Soy sauce", "", "2", "tbsp", ⟨1, 1⟩, "A"⟩,
                    (⟨"Soy sauce", "", "1", "tbsp", ⟨1, 1⟩, "B"⟩ : IngLine)].map lineVal)) ++
            (if firstRem
                  [⟨"Soy sauce", "", "2", "tbsp", ⟨1, 1⟩, "A"⟩,
                    ⟨"Soy sauce", "", "1", "tbsp", ⟨1, 1⟩, "B"⟩] = [] then []
             else ' ' ::
               firstRem
                 [⟨"Soy sauce", "", "2", "tbsp", ⟨1, 1⟩, "A"⟩,
                   ⟨"Soy sauce", "", "1", "tbsp", ⟨1, 1⟩, "B"⟩])),
        "tbsp", ["A", "B"]⟩ :=
  claim_C5_numeric_summation.1 ⟨"Soy sauce", "", "2", "tbsp", ⟨1, 1⟩, "A"⟩
    ⟨"Soy sauce", "", "1", "tbsp", ⟨1, 1⟩, "B"⟩ [] (by decide)

/-- C1 counterexample: in the bucket `["2", "to taste"]` (same key, scale
`1.0`) the first line parses and the second does not; the consolidated
quantity is the failing line's string `"to taste (multiple recipes)"`, not
the first line's `"2 (multiple recipes)"` the claim prescribes. -/
theorem claim_C1_counterexample :
    consolidateBucket
        [⟨"Salt", "", "2", "", ⟨1, 1⟩, "A"⟩, ⟨"Salt", "", "to taste", "", ⟨1, 1⟩, "B"⟩] =
      .ok ⟨"Salt", "", "to taste (multiple recipes)", "", ["A", "B"]⟩ ∧
      ("to taste (multiple recipes)" : String) ≠ "2 (multiple recipes)" := by
  decide

/-- C1 (amended): for a bucket of two or more same-keyed lines, when every
line before `bad` scales and re-parses numerically and `bad`'s scaled
quantity string `qs` fails to parse (i.e. `bad` is the first failing
line), summation is abandoned: the consolidated quantity is `qs` — the
scaled string of the first *failing* line, not necessarily of the first
line — with the literal suffix `" (multiple recipes)"`, and the `recipes`
field still lists every contributing recipe title in encounter order. -/
theorem claim_C1_first_failing_line :
    ∀ (i1 i2 : IngLine) (rest pre post : List IngLine) (bad : IngLine) (qs : String),
      i1 :: i2 :: rest = pre ++ bad :: post →
      (∀ it ∈ pre, (lineParsed it).isSome) →
      scale_quantity bad.quantity bad.scale_factor = .ok qs →
      sumParseChars qs.data = none →
      consolidateBucket (i1 :: i2 :: rest) =
        .ok ⟨i1.name_en, i1.name_jp, qs ++ " (multiple recipes)", i1.unit,
          (i1 :: i2 :: rest).map (fun i => i.recipe_title)⟩ := by
  intro i1 i2 rest pre post bad qs heq hpre hscale hparse
  have hloop := sumLoop_first_fail pre bad post ⟨0, 1⟩ [] qs hpre hscale hparse
  rw [← heq] at hloop
  simp only [consolidateBucket, sum_quantities, hloop, Except.map]

theorem claim_C1_first_failing_line_witness :
    consolidateBucket
        [⟨"Salt", "", "2", "", ⟨1, 1⟩, "A"⟩, ⟨"Salt", "", "to taste", "", ⟨1, 1⟩, "B"⟩] =
      .ok ⟨"Salt", "", "to taste" ++ " (multiple recipes)", "", ["A", "B"]⟩ :=
  claim_C1_first_failing_line ⟨"Salt", "", "2", "", ⟨1, 1⟩, "A"⟩
    ⟨"Salt", "", "to taste", "", ⟨1, 1⟩, "B"⟩ [] [⟨"Salt", "", "2", "", ⟨1, 1⟩, "A"⟩] []
    ⟨"Salt", "", "to taste", "", ⟨1, 1⟩, "B"⟩ "to taste" rfl (by decide) (by decide)
    (by decide)

/-- Digit characters are not whitespace. -/
theorem isWS_digitC (n : ℕ) : isWS (digitC n) = false := by
  have h : n % 10 < 10 := Nat.mod_lt _ (by norm_num)
  unfold digitC
  generalize hk : n % 10 = k at h ⊢
  interval_cases k <;> decide

/-- Every character produced by the digit printer is a digit character. -/
theorem natDigitsAux_digits : ∀ f n, ∀ c ∈ natDigitsAux f n, ∃ m, c = digitC m := by
  intro f
  induction f with
  | zero => intro n c hc; simp [natDigitsAux] at hc
  | succ f ih =>
    intro n c hc
    simp only [natDigitsAux] at hc
    split at hc
    · simp at hc; exact ⟨n, hc⟩
    · rcases List.mem_append.mp hc with h | h
      · exact ih _ c h
      · simp at h; exact ⟨n % 10, h⟩

/-- The digit printer never returns the empty string (with fuel). -/
theorem natDigitsAux_ne_nil (f n : ℕ) : natDigitsAux (f + 1) n ≠ [] := by
  simp only [natDigitsAux]
  split <;> simp

/-- The number formatter never returns the empty string. -/
theorem fmtNumChars_ne_nil (q : PyNum) : fmtNumChars q ≠ [] := by
  unfold fmtNumChars intChars fmt1Chars natDigits
  split
  · intro h
    rcases List.append_eq_nil.mp h with ⟨-, h2⟩
    exact natDigitsAux_ne_nil _ _ h2
  · intro h
    rcases List.append_eq_nil.mp h with ⟨-, h2⟩
    cases h2

/-- Every character of a formatted number is a sign, digit or period — in
particular not whitespace. -/
theorem fmtNumChars_no_ws (q : PyNum) : ∀ c ∈ fmtNumChars q, isWS c = false := by
  unfold fmtNumChars intChars fmt1Chars natDigits
  split
  · intro c hc
    rcases List.mem_append.mp hc with h | h
    · split at h
      · simp at h; subst h; decide
      · simp at h
    · obtain ⟨m, rfl⟩ := natDigitsAux_digits _ _ c h
      exact isWS_digitC m
  · intro c hc
    rcases List.mem_append.mp hc with h | h
    · rcases List.mem_append.mp h with h' | h'
      · split at h'
        · simp at h'; subst h'; decide
        · simp at h'
      · obtain ⟨m, rfl⟩ := natDigitsAux_digits _ _ c h'
        exact isWS_digitC m
    · rcases List.mem_cons.mp h with h' | h'
      · subst h'; decide
      · obtain ⟨m, rfl⟩ := natDigitsAux_digits _ _ c h'
        exact isWS_digitC m

/-- `str.strip` after a non-empty whitespace-free prefix, a space, and a
tail keeps the prefix intact and right-trims the tail (dropping the
separating space as well when the tail is all whitespace). -/
theorem stripChars_sep (a b : List Char) (ha : a ≠ []) (hws : ∀ c ∈ a, isWS c = false) :
    stripChars (a ++ ' ' :: b) =
      if rstripChars b = [] then a else a ++ ' ' :: rstripChars b := by
  have hdrop : List.dropWhile isWS (a ++ ' ' :: b) = a ++ ' ' :: b := by
    cases a with
    | nil => exact absurd rfl ha
    | cons c cs =>
      rw [List.cons_append, List.dropWhile_cons, hws c (List.mem_cons_self c cs)]
      simp
  have hrevne : a.reverse ≠ [] := by simpa using ha
  obtain ⟨d, ds, hd⟩ := List.exists_cons_of_ne_nil hrevne
  have hdws : isWS d = false :=
    hws d (by rw [← List.mem_reverse, hd]; exact List.mem_cons_self d ds)
  have hdropA : List.dropWhile isWS a.reverse = a.reverse := by
    rw [hd, List.dropWhile_cons, hdws]
    simp
  have hrev : (a ++ ' ' :: b).reverse = b.reverse ++ ' ' :: a.reverse := by
    rw [List.reverse_append, List.reverse_cons, List.append_assoc]
    simp
  unfold stripChars
  rw [hdrop, hrev, List.dropWhile_append]
  cases hb : (List.dropWhile isWS b.reverse).isEmpty with
  | true =>
    have hb' : rstripChars b = [] := by
      unfold rstripChars
      rw [List.isEmpty_iff.mp hb]
      rfl
    rw [if_pos rfl, hb']
    have : List.dropWhile isWS (' ' :: a.reverse) = a.reverse := by
      rw [List.dropWhile_cons, if_pos (show isWS ' ' = true from rfl), hdropA]
    rw [this]
    simp
  | false =>
    have hb' : rstripChars b ≠ [] := by
      unfold rstripChars
      simp only [ne_eq, List.reverse_eq_nil_iff]
      intro hcon
      rw [hcon] at hb
      simp at hb
    rw [if_neg (show ¬(false = true) from by decide)]
    rw [if_neg hb']
    rw [List.reverse_append, List.reverse_cons]
    unfold rstripChars
    simp

/-- C6: when a number is extracted and the factor differs from `1.0`,
scaling multiplies the number by the factor, formats it as an integer
string when the scaled value is mathematically whole and with exactly one
decimal digit otherwise, and re-appends the (right-trimmed) remainder
separated by a single space — nothing when the remainder trims to empty;
in particular `scale_quantity("200", 2.0) == "400"`,
`scale_quantity("3", 0.5) == "1.5"`, `scale_quantity("2.5", 2.0) == "5"`.
The first conjunct is the whole-string parse (empty remainder); the second
is the leading-run parse with remainder `g2`. -/
theorem claim_C6_numeric_scaling :
    (∀ (q : String) (f v : PyNum), ¬ f.isOne → pyFloat q = some v →
        scale_quantity q f = .ok (fmtNum (v.mul f))) ∧
      (∀ (q : String) (f v : PyNum) (g1 g2 : List Char), ¬ f.isOne →
          pyFloat q = none → reLeadChars q.data = some (g1, g2) →
          pyFloatChars g1 = some v →
          scale_quantity q f =
            .ok (String.mk (fmtNumChars (v.mul f) ++
              (if rstripChars g2 = [] then [] else ' ' :: rstripChars g2)))) ∧
      scale_quantity "200" ⟨2, 1⟩ = .ok "400" ∧
        scale_quantity "3" ⟨1, 2⟩ = .ok "1.5" ∧
          scale_quantity "2.5" ⟨2, 1⟩ = .ok "5" := by
  refine ⟨fun q f v hf hv => ?_, fun q f v g1 g2 hf hq hre hg1 => ?_, by decide, by decide,
    by decide⟩
  · have hq : ¬ q = "" := by
      intro h
      subst h
      rw [pyFloat_empty] at hv
      cases hv
    unfold scale_quantity
    rw [if_neg (not_or.mpr ⟨hq, hf⟩)]
    rw [pyFloat] at hv
    rw [hv]
  · have hqe : ¬ q = "" := by
      intro h
      subst h
      cases hre
    rw [pyFloat] at hq
    simp only [scale_quantity, if_neg (not_or.mpr ⟨hqe, hf⟩), hq, hre, hg1]
    rw [stripChars_sep _ g2 (fmtNumChars_ne_nil _) (fmtNumChars_no_ws _)]
    by_cases hr : rstripChars g2 = [] <;> simp [hr]

theorem claim_C6_numeric_scaling_witness :
    (¬ PyNum.isOne ⟨2, 1⟩) ∧ pyFloat "200" = some ⟨200, 1⟩ ∧
      scale_quantity "200" ⟨2, 1⟩ = .ok (fmtNum (PyNum.mul ⟨200, 1⟩ ⟨2, 1⟩)) ∧
      pyFloat "3 tbsp" = none ∧
        reLeadChars "3 tbsp".data = some (['3'], ['t', 'b', 's', 'p']) ∧
          pyFloatChars ['3'] = some ⟨3, 1⟩ ∧
            scale_quantity "3 tbsp" ⟨2, 1⟩ =
              .ok (String.mk (fmtNumChars (PyNum.mul ⟨3, 1⟩ ⟨2, 1⟩) ++
                (if rstripChars ['t', 'b', 's', 'p'] = [] then []
                 else ' ' :: rstripChars ['t', 'b', 's', 'p']))) :=
  ⟨by decide, by decide,
    claim_C6_numeric_scaling.1 "200" ⟨2, 1⟩ ⟨200, 1⟩ (by decide) (by decide),
    by decide, by decide, by decide,
    claim_C6_numeric_scaling.2.1 "3 tbsp" ⟨2, 1⟩ ⟨3, 1⟩ ['3'] ['t', 'b', 's', 'p']
      (by decide) (by decide) (by decide) (by decide)⟩

/-- First-encounter key lists contain no duplicates. -/
theorem nodup_firstOccur {α : Type} [DecidableEq α] : ∀ l : List α, (firstOccur l).Nodup := by
  intro l
  induction l with
  | nil => exact List.nodup_nil
  | cons a as ih =>
    rw [firstOccur, List.nodup_cons]
    constructor
    · intro hmem
      have := (List.mem_filter.mp hmem).2
      simp at this
    · exact ih.filter _

/-- Membership in the first-encounter key list is plain membership. -/
theorem mem_firstOccur {α : Type} [DecidableEq α] :
    ∀ (l : List α) (x : α), x ∈ firstOccur l ↔ x ∈ l := by
  intro l
  induction l with
  | nil => intro x; rfl
  | cons a as ih =>
    intro x
    rw [firstOccur, List.mem_cons, List.mem_cons]
    by_cases hx : x = a
    · simp [hx]
    · constructor
      · intro h
        rcases h with h | h
        · exact Or.inl h
        · exact Or.inr ((ih x).mp (List.mem_filter.mp h).1)
      · intro h
        rcases h with h | h
        · exact Or.inl h
        · refine Or.inr (List.mem_filter.mpr ⟨(ih x).mpr h, by simpa using hx⟩)

/-- The keys of a grouped list are the first-encounter keys. -/
theorem groupByKey_fst {α κ : Type} [DecidableEq κ] (key : α → κ) (l : List α) :
    (groupByKey key l).map Prod.fst = firstOccur (l.map key) := by
  simp [groupByKey, List.map_map, Function.comp_def]

/-- The aggregation step preserves the category keys. -/
theorem mapE_aggStep_fst :
    ∀ (bs : List (String × List (String × IngLine))) (res : List (String × List Entry)),
      mapE aggStep bs = .ok res → res.map Prod.fst = bs.map Prod.fst := by
  intro bs
  induction bs with
  | nil => intro res h; cases h; rfl
  | cons cb bs' ih =>
    intro res h
    simp only [mapE] at h
    cases hstep : aggStep cb with
    | error e => rw [hstep] at h; cases h
    | ok p =>
      rw [hstep] at h
      cases hrest : mapE aggStep bs' with
      | error e => rw [hrest] at h; cases h
      | ok ps =>
        rw [hrest] at h
        cases h
        have hp : p.1 = cb.1 := by
          unfold aggStep at hstep
          cases hcons : consolidate_ingredients (cb.2.map Prod.snd) with
          | error e => rw [hcons] at hstep; cases hstep
          | ok es => rw [hcons] at hstep; cases hstep; rfl
        simp only [List.map_cons]
        rw [hp, ih ps hrest]

/-- Characters with equal code points are equal. -/
theorem char_toNat_inj {a b : Char} (h : a.toNat = b.toNat) : a = b :=
  Char.ext (UInt32.ext h)

/-- Unequal strings have unequal character lists. -/
theorem string_data_ne {a b : String} (h : a ≠ b) : a.data ≠ b.data := by
  intro hd
  apply h
  cases a
  cases b
  cases hd
  rfl

/-- The code-point comparison never holds reflexively. -/
theorem charsLtb_irrefl : ∀ l : List Char, charsLtb l l = false := by
  intro l
  induction l with
  | nil => rfl
  | cons x xs ih =>
    simp only [charsLtb]
    rw [if_neg (by omega), if_neg (by omega)]
    exact ih

/-- The code-point order is total. -/
theorem charsLeb_total : ∀ a b : List Char, charsLeb a b = true ∨ charsLeb b a = true := by
  intro a
  induction a with
  | nil => intro b; exact Or.inl rfl
  | cons x xs ih =>
    intro b
    cases b with
    | nil => exact Or.inr rfl
    | cons y ys =>
      simp only [charsLeb]
      rcases Nat.lt_trichotomy x.toNat y.toNat with h | h | h
      · left; rw [if_pos h]
      · rw [if_neg (by omega), if_neg (by omega), if_neg (by omega), if_neg (by omega)]
        exact ih ys
      · right; rw [if_pos h]

/-- The code-point order is transitive. -/
theorem charsLeb_trans :
    ∀ a b c : List Char, charsLeb a b = true → charsLeb b c = true →
      charsLeb a c = true := by
  intro a
  induction a with
  | nil => intro b c _ _; rfl
  | cons x xs ih =>
    intro b c hab hbc
    cases b with
    | nil => cases hab
    | cons y ys =>
      cases c with
      | nil => cases hbc
      | cons z zs =>
        simp only [charsLeb] at hab hbc ⊢
        rcases Nat.lt_trichotomy x.toNat y.toNat with h1 | h1 | h1
        · rcases Nat.lt_trichotomy y.toNat z.toNat with h2 | h2 | h2
          · rw [if_pos (Nat.lt_trans h1 h2)]
          · rw [if_pos (h2 ▸ h1)]
          · rw [if_neg (by omega), if_pos h2] at hbc; cases hbc
        · rw [if_neg (by omega), if_neg (by omega)] at hab
          rcases Nat.lt_trichotomy y.toNat z.toNat with h2 | h2 | h2
          · rw [if_pos (by omega)]
          · rw [if_neg (by omega), if_neg (by omega)] at hbc
            rw [if_neg (by omega), if_neg (by omega)]
            exact ih ys zs hab hbc
          · rw [if_neg (by omega), if_pos h2] at hbc; cases hbc
        · rw [if_neg (by omega), if_pos h1] at hab; cases hab

/-- Weak code-point comparison plus inequality gives strict comparison. -/
theorem charsLtb_of_leb_ne :
    ∀ a b : List Char, charsLeb a b = true → a ≠ b → charsLtb a b = true := by
  intro a
  induction a with
  | nil =>
    intro b _ hne
    cases b with
    | nil => exact absurd rfl hne
    | cons y ys => rfl
  | cons x xs ih =>
    intro b hle hne
    cases b with
    | nil => cases hle
    | cons y ys =>
      simp only [charsLeb] at hle
      simp only [charsLtb]
      rcases Nat.lt_trichotomy x.toNat y.toNat with h1 | h1 | h1
      · rw [if_pos h1]
      · rw [if_neg (by omega), if_neg (by omega)] at hle ⊢
        have hxy : x = y := char_toNat_inj h1
        subst hxy
        refine ih ys hle ?_
        intro hxs
        exact hne (by rw [hxs])
      · rw [if_neg (by omega), if_pos h1] at hle; cases hle

/-- Consolidated category lists are sorted (weakly) by English name. -/
theorem consolidate_sorted (l : List IngLine) (es : List Entry)
    (h : consolidate_ingredients l = .ok es) : List.Sorted byName es := by
  haveI : IsTotal Entry byName := ⟨fun a b => charsLeb_total a.name_en.data b.name_en.data⟩
  haveI : IsTrans Entry byName := ⟨fun _ _ _ hab hbc => charsLeb_trans _ _ _ hab hbc⟩
  unfold consolidate_ingredients at h
  cases hm : mapE (fun kb => consolidateBucket kb.2) (groupByKey groupKey l) with
  | error e => rw [hm] at h; cases h
  | ok entries =>
    rw [hm] at h
    cases h
    exact List.sorted_insertionSort byName entries

/-- A duplicate-free weakly sorted list of strings is strictly sorted. -/
theorem sorted_lt_of_sorted_le_nodup :
    ∀ l : List String,
      List.Sorted (fun a b : String => charsLeb a.data b.data = true) l → l.Nodup →
        List.Sorted pyStrLt l := by
  intro l
  induction l with
  | nil => intro _ _; exact List.sorted_nil
  | cons a as ih =>
    intro hs hn
    rw [List.sorted_cons] at hs ⊢
    rw [List.nodup_cons] at hn
    refine ⟨fun b hb => ?_, ih hs.2 hn.2⟩
    have hne : a ≠ b := fun heq => hn.1 (heq ▸ hb)
    exact charsLtb_of_leb_ne _ _ (hs.1 b hb) (string_data_ne hne)

/-- C7 counterexample: two buckets in one category may carry the same
`name_en` (here `"Salt"` with units `g` and `kg`), so the consolidated
list is not *strictly* ascending by `name_en`. -/
theorem claim_C7_counterexample :
    consolidate_ingredients
        [⟨"Salt", "", "2", "g", ⟨1, 1⟩, "A"⟩, ⟨"Salt", "", "3", "kg", ⟨1, 1⟩, "B"⟩] =
      .ok [⟨"Salt", "", "2", "g", ["A"]⟩, ⟨"Salt", "", "3", "kg", ["B"]⟩] ∧
      ¬ List.Sorted (fun a b : Entry => pyStrLt a.name_en b.name_en)
          [⟨"Salt", "", "2", "g", ["A"]⟩, ⟨"Salt", "", "3", "kg", ["B"]⟩] := by
  constructor
  · decide
  · intro hs
    have h := (List.sorted_cons.mp hs).1 ⟨"Salt", "", "3", "kg", ["B"]⟩ (by simp)
    rw [pyStrLt, charsLtb_irrefl] at h
    cases h

/-- C7 (amended): for every successful aggregation, entries within each
category are sorted non-decreasingly by `name_en` (two entries may share a
`name_en` when their units differ, so the order is not strict in general),
and the category sequence returned for iteration is strictly ascending by
category name. -/
theorem claim_C7_sort_order :
    ∀ (ov : ℤ → Option ℤ) (rs : List Recipe) (res : List (String × List Entry)),
      aggregate_ingredients ov rs = .ok res →
      (∀ ces ∈ res, List.Sorted byName ces.2) ∧
        List.Sorted pyStrLt (get_categories ⟨res⟩) := by
  intro ov rs res h
  constructor
  · intro ces hces
    obtain ⟨cb, hcb, hstep⟩ := mapE_mem_of aggStep h ces hces
    unfold aggStep at hstep
    cases hcons : consolidate_ingredients (cb.2.map Prod.snd) with
    | error e => rw [hcons] at hstep; cases hstep
    | ok es =>
      rw [hcons] at hstep
      cases hstep
      exact consolidate_sorted _ es hcons
  · haveI : IsTotal String (fun a b : String => charsLeb a.data b.data = true) :=
      ⟨fun a b => charsLeb_total a.data b.data⟩
    haveI : IsTrans String (fun a b : String => charsLeb a.data b.data = true) :=
      ⟨fun _ _ _ hab hbc => charsLeb_trans _ _ _ hab hbc⟩
    have hkeys : res.map Prod.fst = firstOccur ((allLines ov rs).map Prod.fst) := by
      rw [mapE_aggStep_fst _ res h, groupByKey_fst]
    have hnd : (res.map Prod.fst).Nodup := hkeys ▸ nodup_firstOccur _
    unfold get_categories
    have hsorted :=
      List.sorted_insertionSort (fun a b : String => charsLeb a.data b.data = true)
        (res.map Prod.fst)
    have hperm :=
      List.perm_insertionSort (fun a b : String => charsLeb a.data b.data = true)
        (res.map Prod.fst)
    exact sorted_lt_of_sorted_le_nodup _ hsorted (hperm.nodup_iff.mpr hnd)

theorem claim_C7_sort_order_witness :
    List.Sorted byName [(⟨"Salt", "", "2", "g", ["A"]⟩ : Entry)] ∧
      List.Sorted pyStrLt
        (get_categories ⟨[("Spices", [⟨"Salt", "", "2", "g", ["A"]⟩])]⟩) :=
  ⟨(claim_C7_sort_order (fun _ => none) [⟨1, "A", 2, [⟨"Salt", "", "2", "g", some "Spices"⟩]⟩]
        [("Spices", [⟨"Salt", "", "2", "g", ["A"]⟩])] (by decide)).1
      ("Spices", [⟨"Salt", "", "2", "g", ["A"]⟩]) (by decide),
    (claim_C7_sort_order (fun _ => none) [⟨1, "A", 2, [⟨"Salt", "", "2", "g", some "Spices"⟩]⟩]
        [("Spices", [⟨"Salt", "", "2", "g", ["A"]⟩])] (by decide)).2⟩

/-- Searching a list for a fixed element finds that element exactly when it
is present. -/
theorem find?_eq_self {κ : Type} [DecidableEq κ] :
    ∀ (l : List κ) (k : κ), l.find? (fun x => x = k) = if k ∈ l then some k else none := by
  intro l k
  induction l with
  | nil => simp
  | cons a as ih =>
    by_cases ha : a = k
    · subst ha
      rw [List.find?_cons_of_pos _ (by simp)]
      simp
    · rw [List.find?_cons_of_neg _ (by simp [ha]), ih]
      by_cases hk : k ∈ as
      · rw [if_pos hk, if_pos (List.mem_cons_of_mem a hk)]
      · rw [if_neg hk, if_neg (by
          intro hm
          rcases List.mem_cons.mp hm with h | h
          · exact ha h.symm
          · exact hk h)]

/-- Looking a key up in the grouped list returns that key's bucket — the
in-order sublist of elements with that key — exactly when the key occurs. -/
theorem groupByKey_find? {α κ : Type} [DecidableEq κ] (key : α → κ) (l : List α) (k : κ) :
    (groupByKey key l).find? (fun p => p.1 = k) =
      if k ∈ l.map key then some (k, l.filter (fun a => key a = k)) else none := by
  rw [groupByKey, List.find?_map]
  rw [show ((fun p : κ × List α => decide (p.1 = k)) ∘
      (fun k' : κ => (k', l.filter (fun a => key a = k')))) =
      (fun k' : κ => decide (k' = k)) from rfl]
  rw [find?_eq_self]
  by_cases hk : k ∈ l.map key
  · rw [if_pos ((mem_firstOccur _ _).mpr hk), if_pos hk]
    rfl
  · rw [if_neg (fun h => hk ((mem_firstOccur _ _).mp h)), if_neg hk]
    rfl

/-- Key lookup commutes with the aggregation step: the result for a
category key is the consolidation of that category's bucket. -/
theorem mapE_aggStep_find? :
    ∀ (bs : List (String × List (String × IngLine))) (res : List (String × List Entry)),
      mapE aggStep bs = .ok res → ∀ c : String,
        (bs.find? (fun p => p.1 = c) = none → res.find? (fun p => p.1 = c) = none) ∧
        (∀ q, bs.find? (fun p => p.1 = c) = some q →
          ∃ es, consolidate_ingredients (q.2.map Prod.snd) = .ok es ∧
            res.find? (fun p => p.1 = c) = some (q.1, es)) := by
  intro bs
  induction bs with
  | nil =>
    intro res h c
    cases h
    exact ⟨fun _ => rfl, fun q hq => by cases hq⟩
  | cons cb bs' ih =>
    intro res h c
    simp only [mapE] at h
    cases hstep : aggStep cb with
    | error e => rw [hstep] at h; cases h
    | ok p =>
      rw [hstep] at h
      cases hrest : mapE aggStep bs' with
      | error e => rw [hrest] at h; cases h
      | ok ps =>
        rw [hrest] at h
        cases h
        have hp1 : p.1 = cb.1 ∧ consolidate_ingredients (cb.2.map Prod.snd) = .ok p.2 := by
          unfold aggStep at hstep
          cases hcons : consolidate_ingredients (cb.2.map Prod.snd) with
          | error e => rw [hcons] at hstep; cases hstep
          | ok es => rw [hcons] at hstep; cases hstep; exact ⟨rfl, rfl⟩
        constructor
        · intro hnone
          by_cases hc : cb.1 = c
          · rw [List.find?_cons_of_pos _ (by simp [hc])] at hnone
            cases hnone
          · rw [List.find?_cons_of_neg _ (by simp [hc])] at hnone
            rw [List.find?_cons_of_neg _ (by simp [hp1.1, hc])]
            exact (ih ps hrest c).1 hnone
        · intro q hq
          by_cases hc : cb.1 = c
          · rw [List.find?_cons_of_pos _ (by simp [hc])] at hq
            cases hq
            refine ⟨p.2, hp1.2, ?_⟩
            rw [List.find?_cons_of_pos _ (by simp [hp1.1, hc])]
            rw [← hp1.1]
          · rw [List.find?_cons_of_neg _ (by simp [hc])] at hq
            obtain ⟨es, hes, hfind⟩ := (ih ps hrest c).2 q hq
            refine ⟨es, hes, ?_⟩
            rw [List.find?_cons_of_neg _ (by simp [hp1.1, hc])]
            exact hfind

/-- A successfully consolidated bucket of same-keyed lines yields an entry
whose case-normalized name and unit are the bucket's key and whose recipe
count is the bucket size. -/
theorem consolidateBucket_sig :
    ∀ (k : String × String) (b : List IngLine) (e : Entry),
      (∀ i ∈ b, groupKey i = k) → b ≠ [] → consolidateBucket b = .ok e →
      entrySig e = (k.1, k.2, b.length) := by
  intro k b e hkey hne hcons
  cases b with
  | nil => exact absurd rfl hne
  | cons x rest =>
    cases rest with
    | nil =>
      simp only [consolidateBucket] at hcons
      cases hs : scale_quantity x.quantity x.scale_factor with
      | error err => rw [hs] at hcons; cases hcons
      | ok q =>
        rw [hs] at hcons
        simp only [Except.map] at hcons
        cases hcons
        have hk := hkey x (List.mem_cons_self _ _)
        rw [entrySig, ← hk]
        rfl
    | cons y rest' =>
      simp only [consolidateBucket] at hcons
      cases hs : sum_quantities (x :: y :: rest') with
      | error err => rw [hs] at hcons; cases hcons
      | ok q =>
        rw [hs] at hcons
        simp only [Except.map] at hcons
        cases hcons
        have hk := hkey x (List.mem_cons_self _ _)
        rw [entrySig, ← hk]
        simp [groupKey]

/-- The signature multiset view of a consolidated category: a triple is the
signature of some consolidated entry exactly when it is a group key of the
input together with that key's bucket size. -/
theorem consolidate_sig_mem (l : List IngLine) (es : List Entry)
    (h : consolidate_ingredients l = .ok es) (t : String × String × ℕ) :
    t ∈ es.map entrySig ↔
      ∃ k ∈ l.map groupKey,
        t = (k.1, k.2, (l.filter (fun a => groupKey a = k)).length) := by
  unfold consolidate_ingredients at h
  cases hm : mapE (fun kb => consolidateBucket kb.2) (groupByKey groupKey l) with
  | error e => rw [hm] at h; cases h
  | ok entries =>
    rw [hm] at h
    cases h
    rw [((List.perm_insertionSort byName entries).map entrySig).mem_iff]
    constructor
    · intro ht
      obtain ⟨e, he, hte⟩ := List.mem_map.mp ht
      obtain ⟨cb, hcb, hcons⟩ := mapE_mem_of _ hm e he
      obtain ⟨k, hkmem, hcbeq⟩ := List.mem_map.mp hcb
      subst hcbeq
      refine ⟨k, (mem_firstOccur _ _).mp hkmem, ?_⟩
      have hk' := (mem_firstOccur _ _).mp hkmem
      obtain ⟨a, ha, hak⟩ := List.mem_map.mp hk'
      have hbne : l.filter (fun i => groupKey i = k) ≠ [] := by
        intro hnil
        have hmem : a ∈ l.filter (fun i => groupKey i = k) :=
          List.mem_filter.mpr ⟨ha, by simp [hak]⟩
        rw [hnil] at hmem
        cases hmem
      have hall : ∀ i ∈ l.filter (fun i => groupKey i = k), groupKey i = k := by
        intro i hi
        have := (List.mem_filter.mp hi).2
        simpa using this
      rw [← hte]
      exact consolidateBucket_sig k _ e hall hbne hcons
    · rintro ⟨k, hk, ht⟩
      have hkf : k ∈ firstOccur (l.map groupKey) := (mem_firstOccur _ _).mpr hk
      have hcb : (k, l.filter (fun i => groupKey i = k)) ∈ groupByKey groupKey l :=
        List.mem_map.mpr ⟨k, hkf, rfl⟩
      obtain ⟨e, he, hcons⟩ := mapE_mem_to _ hm _ hcb
      obtain ⟨a, ha, hak⟩ := List.mem_map.mp hk
      have hbne : l.filter (fun i => groupKey i = k) ≠ [] := by
        intro hnil
        have hmem : a ∈ l.filter (fun i => groupKey i = k) :=
          List.mem_filter.mpr ⟨ha, by simp [hak]⟩
        rw [hnil] at hmem
        cases hmem
      have hall : ∀ i ∈ l.filter (fun i => groupKey i = k), groupKey i = k := by
        intro i hi
        have := (List.mem_filter.mp hi).2
        simpa using this
      have hsig := consolidateBucket_sig k _ e hall hbne hcons
      exact List.mem_map.mpr ⟨e, he, by rw [hsig, ht]⟩

/-- C8 counterexample: the claim's case-sensitive entry identity
`(name_en, unit, recipes count)` is not permutation-invariant — two recipes
contributing `"Salt"` and `"salt"` merge into one bucket whose displayed
name is taken from whichever recipe comes first, so the identity sets of
the two orders differ. -/
theorem claim_C8_counterexample :
    aggregate_ingredients (fun _ => none)
        [⟨1, "A", 2, [⟨"Salt", "", "2", "g", some "Spices"⟩]⟩,
          ⟨2, "B", 2, [⟨"salt", "", "3", "g", some "Spices"⟩]⟩] =
      .ok [("Spices", [⟨"Salt", "", "5", "g", ["A", "B"]⟩])] ∧
      aggregate_ingredients (fun _ => none)
          [⟨2, "B", 2, [⟨"salt", "", "3", "g", some "Spices"⟩]⟩,
            ⟨1, "A", 2, [⟨"Salt", "", "2", "g", some "Spices"⟩]⟩] =
        .ok [("Spices", [⟨"salt", "", "5", "g", ["B", "A"]⟩])] ∧
      List.Perm
          [(⟨1, "A", 2, [⟨"Salt", "", "2", "g", some "Spices"⟩]⟩ : Recipe),
            ⟨2, "B", 2, [⟨"salt", "", "3", "g", some "Spices"⟩]⟩]
          [⟨2, "B", 2, [⟨"salt", "", "3", "g", some "Spices"⟩]⟩,
            ⟨1, "A", 2, [⟨"Salt", "", "2", "g", some "Spices"⟩]⟩] ∧
      ("Salt", "g", 2) ∈
          [(⟨"Salt", "", "5", "g", ["A", "B"]⟩ : Entry)].map
            (fun e => (e.name_en, e.unit, e.recipes.length)) ∧
      ("Salt", "g", 2) ∉
          [(⟨"salt", "", "5", "g", ["B", "A"]⟩ : Entry)].map
            (fun e => (e.name_en, e.unit, e.recipes.length)) := by
  exact ⟨by decide, by decide, List.Perm.swap _ _ _, by decide, by decide⟩

/-- C8 (amended): permuting the input recipe list leaves the category set
unchanged and, within each category, leaves unchanged the set of
consolidated entries identified by *case-normalized* name, case-normalized
unit and number of contributing recipes (the displayed name/unit casing
and the ordering inside each entry's `recipes` list may depend on input
order). -/
theorem claim_C8_grouping_determinism :
    ∀ (ov : ℤ → Option ℤ) (rs₁ rs₂ : List Recipe)
      (res₁ res₂ : List (String × List Entry)),
      rs₁.Perm rs₂ →
      aggregate_ingredients ov rs₁ = .ok res₁ →
      aggregate_ingredients ov rs₂ = .ok res₂ →
      (∀ c, c ∈ res₁.map Prod.fst ↔ c ∈ res₂.map Prod.fst) ∧
        (∀ c t, t ∈ (get_items_by_category ⟨res₁⟩ c).map entrySig ↔
          t ∈ (get_items_by_category ⟨res₂⟩ c).map entrySig) := by
  intro ov rs₁ rs₂ res₁ res₂ hperm h1 h2
  have hlines : (allLines ov rs₁).Perm (allLines ov rs₂) :=
    (hperm.map (catLines ov)).flatten
  have hkeys1 : res₁.map Prod.fst = firstOccur ((allLines ov rs₁).map Prod.fst) := by
    rw [mapE_aggStep_fst _ _ h1, groupByKey_fst]
  have hkeys2 : res₂.map Prod.fst = firstOccur ((allLines ov rs₂).map Prod.fst) := by
    rw [mapE_aggStep_fst _ _ h2, groupByKey_fst]
  refine ⟨fun c => ?_, fun c t => ?_⟩
  · rw [hkeys1, hkeys2, mem_firstOccur, mem_firstOccur]
    exact (hlines.map Prod.fst).mem_iff
  · by_cases hc : c ∈ (allLines ov rs₁).map Prod.fst
    · have hc2 : c ∈ (allLines ov rs₂).map Prod.fst := (hlines.map Prod.fst).mem_iff.mp hc
      obtain ⟨es₁, hes₁, hfind₁⟩ :=
        (mapE_aggStep_find? _ _ h1 c).2
          (c, (allLines ov rs₁).filter (fun a => Prod.fst a = c))
          (by rw [groupByKey_find?, if_pos hc])
      obtain ⟨es₂, hes₂, hfind₂⟩ :=
        (mapE_aggStep_find? _ _ h2 c).2
          (c, (allLines ov rs₂).filter (fun a => Prod.fst a = c))
          (by rw [groupByKey_find?, if_pos hc2])
      have e1 : get_items_by_category ⟨res₁⟩ c = es₁ := by
        unfold get_items_by_category
        rw [hfind₁]
      have e2 : get_items_by_category ⟨res₂⟩ c = es₂ := by
        unfold get_items_by_category
        rw [hfind₂]
      rw [e1, e2, consolidate_sig_mem _ _ hes₁ t, consolidate_sig_mem _ _ hes₂ t]
      have hsnd :
          (((allLines ov rs₁).filter (fun a => Prod.fst a = c)).map Prod.snd).Perm
            (((allLines ov rs₂).filter (fun a => Prod.fst a = c)).map Prod.snd) :=
        (hlines.filter _).map _
      constructor
      · rintro ⟨k, hk, ht⟩
        refine ⟨k, (hsnd.map groupKey).mem_iff.mp hk, ?_⟩
        rw [ht, (hsnd.filter (fun i => groupKey i = k)).length_eq]
      · rintro ⟨k, hk, ht⟩
        refine ⟨k, (hsnd.map groupKey).mem_iff.mpr hk, ?_⟩
        rw [ht, (hsnd.filter (fun i => groupKey i = k)).length_eq]
    · have hc2 : c ∉ (allLines ov rs₂).map Prod.fst :=
        fun h => hc ((hlines.map Prod.fst).mem_iff.mpr h)
      have e1 : get_items_by_category ⟨res₁⟩ c = [] := by
        unfold get_items_by_category
        rw [(mapE_aggStep_find? _ _ h1 c).1 (by rw [groupByKey_find?, if_neg hc])]
      have e2 : get_items_by_category ⟨res₂⟩ c = [] := by
        unfold get_items_by_category
        rw [(mapE_aggStep_find? _ _ h2 c).1 (by rw [groupByKey_find?, if_neg hc2])]
      rw [e1, e2]

theorem claim_C8_grouping_determinism_witness :
    ("salt", "g", 2) ∈
        (get_items_by_category ⟨[("Spices", [⟨"Salt", "", "5", "g", ["A", "B"]⟩])]⟩
            "Spices").map entrySig ↔
      ("salt", "g", 2) ∈
        (get_items_by_category ⟨[("Spices", [⟨"salt", "", "5", "g", ["B", "A"]⟩])]⟩
            "Spices").map entrySig :=
  (claim_C8_grouping_determinism (fun _ => none)
      [⟨1, "A", 2, [⟨"Salt", "", "2", "g", some "Spices"⟩]⟩,
        ⟨2, "B", 2, [⟨"salt", "", "3", "g", some "Spices"⟩]⟩]
      [⟨2, "B", 2, [⟨"salt", "", "3", "g", some "Spices"⟩]⟩,
        ⟨1, "A", 2, [⟨"Salt", "", "2", "g", some "Spices"⟩]⟩]
      [("Spices", [⟨"Salt", "", "5", "g", ["A", "B"]⟩])]
      [("Spices", [⟨"salt", "", "5", "g", ["B", "A"]⟩])]
      (List.Perm.swap _ _ _) (by decide) (by decide)).2 "Spices" ("salt", "g", 2)
